import Mathlib

/-!
Verification of a Thompson-construction regular-expression engine.

The source program (`src/main.rs`) defines a pattern AST `Regex`, compiles it
to an NFA represented as a flat array of nodes with integer transition
targets (`NFA::from_regex`), and decides acceptance of a character sequence
by epsilon-closure-based set simulation (`NFA::accepts`).

This development shallowly embeds those definitions: `Vec` becomes `List`,
`HashSet<usize>` becomes `Finset Nat` (the Rust code only ever queries
membership, emptiness and cardinality, so the set abstraction is exact),
and the slice indexing `self.nodes[i]` becomes `List.getD i ⟨[]⟩`
(in-bounds indexing agrees; the compiled automata never index out of
bounds, see the invariant theorems below).
-/

set_option maxHeartbeats 1000000
set_option linter.unnecessarySeqFocus false
set_option linter.unreachableTactic false
set_option linter.unusedTactic false
set_option linter.unusedVariables false

namespace Thompson

/-- The pattern AST (`enum Regex` in the source, src/main.rs lines 4-11). -/
inductive Regex where
  | Empty : Regex
  | Single : Char → Regex
  | Or : Regex → Regex → Regex
  | Then : Regex → Regex → Regex
  | Star : Regex → Regex

/-- `Regex::or` (src/main.rs lines 15-17): boxes clones of both operands. -/
def Regex.or (r s : Regex) : Regex := Regex.Or r s

/-- `Regex::then` (src/main.rs lines 19-21). -/
def Regex.«then» (r s : Regex) : Regex := Regex.Then r s

/-- `Regex::star` (src/main.rs lines 23-25). -/
def Regex.star (r : Regex) : Regex := Regex.Star r

/-- A graph node (`struct Node`): transitions are `(label, target)` pairs;
a `none` label is an epsilon step (src/main.rs lines 28-32). -/
structure Node where
  transitions : List (Option Char × Nat)
deriving DecidableEq

/-- `Node::new` (src/main.rs lines 43-45). -/
def Node.new (ts : List (Option Char × Nat)) : Node := ⟨ts⟩

/-- `Node::neighbours` (src/main.rs lines 35-41): targets of the
transitions whose label equals `a`. -/
def Node.neighbours (n : Node) (a : Option Char) : List Nat :=
  (n.transitions.filter (fun t => t.1 == a)).map (fun x => x.2)

/-- `struct NFA` (src/main.rs lines 48-53). -/
structure NFA where
  nodes : List Node
  start_idx : Nat
  final_idx : Nat

/-- The node at index `i`; total model of the slice indexing `self.nodes[i]`
(a node with no transitions when out of range). -/
def NFA.node (m : NFA) (i : Nat) : Node := m.nodes.getD i ⟨[]⟩

/-- `NFA::empty` (src/main.rs lines 57-63). -/
def NFA.empty : NFA :=
  { nodes := [Node.new [(none, 1)], Node.new []], start_idx := 0, final_idx := 1 }

/-- `NFA::single` (src/main.rs lines 65-71). -/
def NFA.single (a : Char) : NFA :=
  { nodes := [Node.new [(some a, 1)], Node.new []], start_idx := 0, final_idx := 1 }

/-- One node produced by `NFA::embed` (src/main.rs lines 149-164): every
transition target is shifted by `offset`, and the node that was the
sub-NFA's accepting node additionally gets an epsilon transition to each
member of `final_trans`, appended in order. -/
def embedNode (offset : Nat) (final_trans : List Nat) (isFinal : Bool) (n : Node) : Node :=
  let shifted := n.transitions.map (fun p => (p.1, p.2 + offset))
  if isFinal then Node.new (shifted ++ final_trans.map (fun t => ((none : Option Char), t)))
  else Node.new shifted

/-- The block of nodes written by `NFA::embed` into slots
`offset, offset+1, ...` of the enclosing array (src/main.rs lines 149-164). -/
def embedNodes (sub : NFA) (offset : Nat) (final_trans : List Nat) : List Node :=
  (List.range sub.nodes.length).map
    (fun i => embedNode offset final_trans (i == sub.final_idx) (sub.node i))

/-- `NFA::then` (src/main.rs lines 91-108).  The source allocates
`a.len + b.len + 2` empty nodes and then overwrites slot 0 (new start),
slots `1 .. a.len` (embedded `a`, exit to `a.len + 1`), slots
`1 + a.len .. a.len + b.len` (embedded `b`, exit to the new accept) and the
last slot (new accept); the concatenation below lists exactly those slots
in order. -/
def NFA.«then» (a b : NFA) : NFA :=
  let final_idx := a.nodes.length + b.nodes.length + 1
  { nodes := [Node.new [(none, 1)]]
      ++ embedNodes a 1 [a.nodes.length + 1]
      ++ embedNodes b (1 + a.nodes.length) [final_idx]
      ++ [Node.new []],
    start_idx := 0,
    final_idx := final_idx }

/-- `NFA::or` (src/main.rs lines 110-128); same layout, with the new start
pointing at both embedded starts and both embedded accepts exiting to the
new accept. -/
def NFA.or (a b : NFA) : NFA :=
  let final_idx := a.nodes.length + b.nodes.length + 1
  { nodes := [Node.new [(none, 1), (none, 1 + a.nodes.length)]]
      ++ embedNodes a 1 [final_idx]
      ++ embedNodes b (1 + a.nodes.length) [final_idx]
      ++ [Node.new []],
    start_idx := 0,
    final_idx := final_idx }

/-- `NFA::star` (src/main.rs lines 130-147); the embedded accept exits to
the new accept and also epsilon-steps back to node 0, the new start. -/
def NFA.star (a : NFA) : NFA :=
  let final_idx := a.nodes.length + 1
  { nodes := [Node.new [(none, 1), (none, final_idx)]]
      ++ embedNodes a 1 [final_idx, 0]
      ++ [Node.new []],
    start_idx := 0,
    final_idx := final_idx }

/-- `NFA::from_regex` (src/main.rs lines 73-89). -/
def NFA.from_regex : Regex → NFA
  | Regex.Empty => NFA.empty
  | Regex.Single c => NFA.single c
  | Regex.Or r s => NFA.or (NFA.from_regex r) (NFA.from_regex s)
  | Regex.Then r s => NFA.«then» (NFA.from_regex r) (NFA.from_regex s)
  | Regex.Star r => NFA.star (NFA.from_regex r)

/-- `NFA::step` (src/main.rs lines 199-207): all targets of `a`-labelled
transitions out of any state in `states`. -/
def NFA.step (m : NFA) (states : Finset Nat) (a : Option Char) : Finset Nat :=
  states.biUnion (fun s => ((m.node s).neighbours a).toFinset)

/-- Every transition target occurring anywhere in the graph.  Used only as
the termination measure of `epsilonClosure`; the loop can only ever add
such targets to its state set. -/
def NFA.allTargets (m : NFA) : Finset Nat :=
  (m.nodes.flatMap (fun n => n.transitions.map (fun p => p.2))).toFinset

theorem Node.mem_neighbours {n : Node} {a : Option Char} {j : Nat} :
    j ∈ n.neighbours a ↔ (a, j) ∈ n.transitions := by
  simp only [Node.neighbours, List.mem_map, List.mem_filter, beq_iff_eq]
  constructor
  · rintro ⟨⟨x1, x2⟩, ⟨hmem, rfl⟩, rfl⟩
    exact hmem
  · intro h
    exact ⟨(a, j), ⟨h, rfl⟩, rfl⟩

theorem NFA.mem_step {m : NFA} {S : Finset Nat} {a : Option Char} {j : Nat} :
    j ∈ m.step S a ↔ ∃ i ∈ S, (a, j) ∈ (m.node i).transitions := by
  simp only [NFA.step, Finset.mem_biUnion, List.mem_toFinset, Node.mem_neighbours]

theorem NFA.node_mem_nodes {m : NFA} {i : Nat} (h : (m.node i).transitions ≠ []) :
    m.node i ∈ m.nodes := by
  by_cases hi : i < m.nodes.length
  · unfold NFA.node
    rw [List.getD_eq_getElem _ _ hi]
    exact List.getElem_mem hi
  · exfalso
    apply h
    unfold NFA.node
    rw [List.getD_eq_default _ _ (Nat.le_of_not_lt hi)]

theorem NFA.step_subset_allTargets (m : NFA) (S : Finset Nat) (a : Option Char) :
    m.step S a ⊆ m.allTargets := by
  intro j hj
  rw [NFA.mem_step] at hj
  obtain ⟨i, _, hmem⟩ := hj
  have hne : (m.node i).transitions ≠ [] := by
    intro h
    rw [h] at hmem
    simp at hmem
  have hn : m.node i ∈ m.nodes := NFA.node_mem_nodes hne
  simp only [NFA.allTargets, List.mem_toFinset, List.mem_flatMap, List.mem_map]
  exact ⟨m.node i, hn, (a, j), hmem, rfl⟩

/-- `NFA::epsilon_closure` (src/main.rs lines 182-197): repeatedly add all
epsilon successors of the current set; stop as soon as a round finds no
successors at all, or adding them does not grow the set.  The Rust loop
mutates `states` in place; here each round returns the grown set.
Termination: each recursive round strictly grows the set while staying
inside `allTargets ∪ states`. -/
def NFA.epsilonClosure (m : NFA) (states : Finset Nat) : Finset Nat :=
  let new_nodes := m.step states none
  if new_nodes = ∅ then states
  else
    let states' := states ∪ new_nodes
    if states'.card = states.card then states'
    else m.epsilonClosure states'
termination_by (m.allTargets ∪ states).card - states.card
decreasing_by
  rename_i h2
  have hsub : states ∪ m.step states none ⊆ m.allTargets ∪ states := by
    intro x hx
    rcases Finset.mem_union.mp hx with h | h
    · exact Finset.mem_union_right _ h
    · exact Finset.mem_union_left _ (m.step_subset_allTargets _ _ h)
  have hle : states.card ≤ (states ∪ m.step states none).card :=
    Finset.card_le_card Finset.subset_union_left
  have hlt : states.card < (states ∪ m.step states none).card := by
    rcases Nat.lt_or_ge states.card (states ∪ m.step states none).card with h | h
    · exact h
    · exact absurd (Nat.le_antisymm hle h).symm h2
  have hA : m.allTargets ∪ (states ∪ m.step states none) = m.allTargets ∪ states := by
    apply Finset.Subset.antisymm
    · intro x hx
      rcases Finset.mem_union.mp hx with h | h
      · exact Finset.mem_union_left _ h
      · exact hsub h
    · intro x hx
      rcases Finset.mem_union.mp hx with h | h
      · exact Finset.mem_union_left _ h
      · exact Finset.mem_union_right _ (Finset.mem_union_left _ h)
  rw [hA]
  have hle2 : (states ∪ m.step states none).card ≤ (m.allTargets ∪ states).card := by
    calc (states ∪ m.step states none).card
        ≤ (m.allTargets ∪ (states ∪ m.step states none)).card :=
          Finset.card_le_card Finset.subset_union_right
      _ = (m.allTargets ∪ states).card := by rw [hA]
  exact Nat.sub_lt_sub_left (Nat.lt_of_lt_of_le hlt hle2) hlt

/-- The loop body of `NFA::accepts` (src/main.rs lines 171-177), starting
from an arbitrary current state set. -/
def NFA.acceptsFrom (m : NFA) (states : Finset Nat) : List Char → Bool
  | [] => decide (m.final_idx ∈ states)
  | c :: cs =>
    let next := m.step states (some c)
    if next = ∅ then false
    else m.acceptsFrom (m.epsilonClosure next) cs

/-- `NFA::accepts` (src/main.rs lines 166-180). -/
def NFA.accepts (m : NFA) (xs : List Char) : Bool :=
  m.acceptsFrom (m.epsilonClosure {m.start_idx}) xs

/-- The simulation of `NFA::accepts` gets stuck on `xs` from `states`:
some symbol step along the way yields the empty set (the condition under
which the source returns `false` without consuming the rest of the
input). -/
def NFA.stuckFrom (m : NFA) (states : Finset Nat) : List Char → Bool
  | [] => false
  | c :: cs =>
    let next := m.step states (some c)
    if next = ∅ then true
    else m.stuckFrom (m.epsilonClosure next) cs

/-! ## Specification-side definitions -/

/-- Denotational language of a pattern, following the spec: `Empty`
denotes the singleton of the empty sequence, `Literal(c)` denotes `{[c]}`,
`Alternation` is language union, `Concatenation` is language concatenation
and `Repetition` is Kleene star. -/
inductive Regex.Matches : Regex → List Char → Prop where
  | empty : Regex.Matches Regex.Empty []
  | single (c : Char) : Regex.Matches (Regex.Single c) [c]
  | orL {r s : Regex} {xs : List Char} :
      Regex.Matches r xs → Regex.Matches (Regex.Or r s) xs
  | orR {r s : Regex} {xs : List Char} :
      Regex.Matches s xs → Regex.Matches (Regex.Or r s) xs
  | cat {r s : Regex} {u v : List Char} :
      Regex.Matches r u → Regex.Matches s v → Regex.Matches (Regex.Then r s) (u ++ v)
  | starNil {r : Regex} : Regex.Matches (Regex.Star r) []
  | starCons {r : Regex} {u v : List Char} :
      Regex.Matches r u → Regex.Matches (Regex.Star r) v →
      Regex.Matches (Regex.Star r) (u ++ v)

/-- Kleene star of an arbitrary language: finitely many concatenated
members. -/
inductive Lstar (L : List Char → Prop) : List Char → Prop where
  | nil : Lstar L []
  | cons {u v : List Char} : L u → Lstar L v → Lstar L (u ++ v)

/-- A path through the NFA graph from state `i` to state `k` whose
consuming transitions, in order, spell out the given word. -/
inductive NFA.Path (m : NFA) : Nat → List Char → Nat → Prop where
  | refl (i : Nat) : NFA.Path m i [] i
  | eps {i j k : Nat} {xs : List Char} :
      (none, j) ∈ (m.node i).transitions → NFA.Path m j xs k → NFA.Path m i xs k
  | symb {i j k : Nat} {c : Char} {xs : List Char} :
      (some c, j) ∈ (m.node i).transitions → NFA.Path m j xs k →
      NFA.Path m i (c :: xs) k

/-- The language of an NFA: words spelled by some path from the start
state to the accepting state. -/
def NFA.Lang (m : NFA) (xs : List Char) : Prop :=
  m.Path m.start_idx xs m.final_idx

/-- Single epsilon edge of the graph. -/
def NFA.EpsEdge (m : NFA) (i j : Nat) : Prop :=
  (none, j) ∈ (m.node i).transitions

/-- Number of AST nodes of a pattern. -/
def Regex.size : Regex → Nat
  | Regex.Empty => 1
  | Regex.Single _ => 1
  | Regex.Or r s => r.size + s.size + 1
  | Regex.Then r s => r.size + s.size + 1
  | Regex.Star r => r.size + 1

/-- Every transition target anywhere in the graph is a valid index. -/
def NFA.targetsOk (m : NFA) : Prop :=
  ∀ n ∈ m.nodes, ∀ p ∈ n.transitions, p.2 < m.nodes.length

/-- Shape invariant of every NFA produced by `from_regex`: start index 0,
accepting index last, at least two nodes, all targets in bounds, and the
accepting node has no outgoing transitions. -/
structure NFA.Canonical (m : NFA) : Prop where
  start_eq : m.start_idx = 0
  final_eq : m.final_idx = m.nodes.length - 1
  two_le : 2 ≤ m.nodes.length
  targets : m.targetsOk
  final_nil : (m.node m.final_idx).transitions = []

theorem NFA.targets_lt {m : NFA} (h : m.targetsOk) {i : Nat} {l : Option Char} {t : Nat}
    (hmem : (l, t) ∈ (m.node i).transitions) : t < m.nodes.length := by
  have hne : (m.node i).transitions ≠ [] := by
    intro hnil
    rw [hnil] at hmem
    simp at hmem
  exact h _ (NFA.node_mem_nodes hne) _ hmem

/-! ## Correctness of the epsilon-closure loop -/

theorem NFA.subset_epsilonClosure (m : NFA) (S : Finset Nat) :
    S ⊆ m.epsilonClosure S := by
  induction S using NFA.epsilonClosure.induct m with
  | case1 S nn =>
    rename_i hnew
    have h : m.step S none = ∅ := hnew
    rw [NFA.epsilonClosure, if_pos h]
  | case2 S nn hnew st =>
    rename_i hcard
    have h1 : ¬ m.step S none = ∅ := hnew
    have h2 : (S ∪ m.step S none).card = S.card := hcard
    rw [NFA.epsilonClosure, if_neg h1, if_pos h2]
    exact Finset.subset_union_left
  | case3 S nn hnew st hcard =>
    rename_i ih
    have h1 : ¬ m.step S none = ∅ := hnew
    have h2 : ¬ (S ∪ m.step S none).card = S.card := hcard
    rw [NFA.epsilonClosure, if_neg h1, if_neg h2]
    exact Finset.Subset.trans Finset.subset_union_left ih

theorem NFA.step_epsilonClosure_subset (m : NFA) (S : Finset Nat) :
    m.step (m.epsilonClosure S) none ⊆ m.epsilonClosure S := by
  induction S using NFA.epsilonClosure.induct m with
  | case1 S nn =>
    rename_i hnew
    have h : m.step S none = ∅ := hnew
    rw [NFA.epsilonClosure, if_pos h, h]
    exact Finset.empty_subset S
  | case2 S nn hnew st =>
    rename_i hcard
    have h1 : ¬ m.step S none = ∅ := hnew
    have h2 : (S ∪ m.step S none).card = S.card := hcard
    have heq : S ∪ m.step S none = S :=
      (Finset.eq_of_subset_of_card_le Finset.subset_union_left (Nat.le_of_eq h2)).symm
    rw [NFA.epsilonClosure, if_neg h1, if_pos h2, heq]
    intro x hx
    rw [← heq]
    exact Finset.mem_union_right _ hx
  | case3 S nn hnew st hcard =>
    rename_i ih
    have h1 : ¬ m.step S none = ∅ := hnew
    have h2 : ¬ (S ∪ m.step S none).card = S.card := hcard
    rw [NFA.epsilonClosure, if_neg h1, if_neg h2]
    exact ih

theorem NFA.epsilonClosure_sound (m : NFA) (S : Finset Nat) :
    ∀ j ∈ m.epsilonClosure S, ∃ i ∈ S, Relation.ReflTransGen m.EpsEdge i j := by
  induction S using NFA.epsilonClosure.induct m with
  | case1 S nn =>
    rename_i hnew
    have h : m.step S none = ∅ := hnew
    rw [NFA.epsilonClosure, if_pos h]
    intro j hj
    exact ⟨j, hj, Relation.ReflTransGen.refl⟩
  | case2 S nn hnew st =>
    rename_i hcard
    have h1 : ¬ m.step S none = ∅ := hnew
    have h2 : (S ∪ m.step S none).card = S.card := hcard
    rw [NFA.epsilonClosure, if_neg h1, if_pos h2]
    intro j hj
    rcases Finset.mem_union.mp hj with h | h
    · exact ⟨j, h, Relation.ReflTransGen.refl⟩
    · obtain ⟨i, hi, hmem⟩ := NFA.mem_step.mp h
      exact ⟨i, hi, Relation.ReflTransGen.single hmem⟩
  | case3 S nn hnew st hcard =>
    rename_i ih
    have h1 : ¬ m.step S none = ∅ := hnew
    have h2 : ¬ (S ∪ m.step S none).card = S.card := hcard
    rw [NFA.epsilonClosure, if_neg h1, if_neg h2]
    intro j hj
    obtain ⟨i', hi', hrtg⟩ := ih j hj
    rcases Finset.mem_union.mp hi' with h | h
    · exact ⟨i', h, hrtg⟩
    · obtain ⟨i, hi, hmem⟩ := NFA.mem_step.mp h
      exact ⟨i, hi, Relation.ReflTransGen.head hmem hrtg⟩

theorem NFA.epsilonClosure_complete (m : NFA) (S : Finset Nat) {i j : Nat}
    (hi : i ∈ S) (h : Relation.ReflTransGen m.EpsEdge i j) :
    j ∈ m.epsilonClosure S := by
  induction h with
  | refl => exact m.subset_epsilonClosure S hi
  | tail hab hbc ih =>
    apply m.step_epsilonClosure_subset S
    exact NFA.mem_step.mpr ⟨_, ih, hbc⟩

/-- Full characterisation of the closure loop: it returns exactly the
states reachable from the input set via zero or more epsilon
transitions. -/
theorem NFA.mem_epsilonClosure_iff (m : NFA) (S : Finset Nat) (j : Nat) :
    j ∈ m.epsilonClosure S ↔ ∃ i ∈ S, Relation.ReflTransGen m.EpsEdge i j := by
  constructor
  · exact m.epsilonClosure_sound S j
  · rintro ⟨i, hi, h⟩
    exact m.epsilonClosure_complete S hi h

/-! ## Simulation agrees with path existence -/

theorem NFA.Path.append {m : NFA} {i j k : Nat} {u v : List Char}
    (h1 : m.Path i u j) (h2 : m.Path j v k) : m.Path i (u ++ v) k := by
  induction h1 with
  | refl _ => exact h2
  | eps hmem _ ih => exact NFA.Path.eps hmem (ih h2)
  | symb hmem _ ih => exact NFA.Path.symb hmem (ih h2)

theorem NFA.path_of_epsRTG {m : NFA} {i j : Nat}
    (h : Relation.ReflTransGen m.EpsEdge i j) : m.Path i [] j := by
  induction h with
  | refl => exact NFA.Path.refl _
  | tail _ hbc ih => exact ih.append (NFA.Path.eps hbc (NFA.Path.refl _))

/-- The state set is closed under epsilon steps. -/
def NFA.Closed (m : NFA) (S : Finset Nat) : Prop := m.step S none ⊆ S

theorem NFA.closed_epsilonClosure (m : NFA) (S : Finset Nat) :
    m.Closed (m.epsilonClosure S) := m.step_epsilonClosure_subset S

theorem NFA.path_nil_mem {m : NFA} {S : Finset Nat} (hS : m.Closed S)
    {i j : Nat} {xs : List Char} (h : m.Path i xs j) :
    xs = [] → i ∈ S → j ∈ S := by
  induction h with
  | refl _ => exact fun _ hi => hi
  | eps hmem _ ih =>
    intro hxs hi
    exact ih hxs (hS (NFA.mem_step.mpr ⟨_, hi, hmem⟩))
  | symb hmem _ ih =>
    intro hxs
    exact absurd hxs (by simp)

theorem NFA.path_cons_step {m : NFA} {S : Finset Nat} (hS : m.Closed S)
    {i j : Nat} {c : Char} {xs ys : List Char} (h : m.Path i ys j) :
    ys = c :: xs → i ∈ S → ∃ k ∈ m.step S (some c), m.Path k xs j := by
  induction h with
  | refl _ => exact fun hys _ => absurd hys (by simp)
  | eps hmem _ ih =>
    intro hys hi
    exact ih hys (hS (NFA.mem_step.mpr ⟨_, hi, hmem⟩))
  | symb hmem hp ih =>
    intro hys hi
    injection hys with h1 h2
    subst h1
    subst h2
    exact ⟨_, NFA.mem_step.mpr ⟨_, hi, hmem⟩, hp⟩

theorem NFA.acceptsFrom_iff (m : NFA) :
    ∀ (xs : List Char) (S : Finset Nat), m.Closed S →
      (m.acceptsFrom S xs = true ↔ ∃ i ∈ S, m.Path i xs m.final_idx) := by
  intro xs
  induction xs with
  | nil =>
    intro S hS
    simp only [NFA.acceptsFrom, decide_eq_true_eq]
    constructor
    · intro h
      exact ⟨_, h, NFA.Path.refl _⟩
    · rintro ⟨i, hi, hp⟩
      exact NFA.path_nil_mem hS hp rfl hi
  | cons c cs ih =>
    intro S hS
    simp only [NFA.acceptsFrom]
    by_cases hemp : m.step S (some c) = ∅
    · rw [if_pos hemp]
      constructor
      · intro h
        exact absurd h (by simp)
      · rintro ⟨i, hi, hp⟩
        obtain ⟨k, hk, _⟩ := NFA.path_cons_step hS hp rfl hi
        rw [hemp] at hk
        exact absurd hk (by simp)
    · rw [if_neg hemp]
      rw [ih _ (m.closed_epsilonClosure _)]
      constructor
      · rintro ⟨i, hi, hp⟩
        obtain ⟨k, hk, hrtg⟩ := m.epsilonClosure_sound _ i hi
        obtain ⟨i0, hi0, hmem⟩ := NFA.mem_step.mp hk
        exact ⟨i0, hi0, NFA.Path.symb hmem ((NFA.path_of_epsRTG hrtg).append hp)⟩
      · rintro ⟨i, hi, hp⟩
        obtain ⟨k, hk, hp'⟩ := NFA.path_cons_step hS hp rfl hi
        exact ⟨k, m.subset_epsilonClosure _ hk, hp'⟩

theorem NFA.accepts_iff_path (m : NFA) (xs : List Char) :
    m.accepts xs = true ↔ m.Lang xs := by
  unfold NFA.accepts NFA.Lang
  rw [m.acceptsFrom_iff xs _ (m.closed_epsilonClosure _)]
  constructor
  · rintro ⟨i, hi, hp⟩
    obtain ⟨i0, hi0, hrtg⟩ := m.epsilonClosure_sound _ i hi
    rw [Finset.mem_singleton] at hi0
    subst hi0
    exact (NFA.path_of_epsRTG hrtg).append hp
  · intro hp
    exact ⟨_, m.subset_epsilonClosure _ (Finset.mem_singleton_self _), hp⟩

theorem NFA.stuckFrom_acceptsFrom_append (m : NFA) :
    ∀ (s : List Char) (S : Finset Nat) (t : List Char),
      m.stuckFrom S s = true → m.acceptsFrom S (s ++ t) = false := by
  intro s
  induction s with
  | nil =>
    intro S t h
    simp [NFA.stuckFrom] at h
  | cons c cs ih =>
    intro S t h
    simp only [NFA.stuckFrom] at h
    simp only [List.cons_append, NFA.acceptsFrom]
    by_cases hemp : m.step S (some c) = ∅
    · rw [if_pos hemp]
    · rw [if_neg hemp] at h ⊢
      exact ih _ t h

/-! ## Node layout of the composite constructions -/

theorem getD_append_left {l1 l2 : List Node} {i : Nat} (h : i < l1.length) (d : Node) :
    (l1 ++ l2).getD i d = l1.getD i d := by
  rw [List.getD_eq_getElem?_getD, List.getD_eq_getElem?_getD, List.getElem?_append_left h]

theorem getD_append_right {l1 l2 : List Node} {i : Nat} (h : l1.length ≤ i) (d : Node) :
    (l1 ++ l2).getD i d = l2.getD (i - l1.length) d := by
  rw [List.getD_eq_getElem?_getD, List.getD_eq_getElem?_getD, List.getElem?_append_right h]

theorem embedNodes_length (sub : NFA) (offset : Nat) (ft : List Nat) :
    (embedNodes sub offset ft).length = sub.nodes.length := by
  simp [embedNodes]

theorem getD_embedNodes (sub : NFA) (offset : Nat) (ft : List Nat) {i : Nat}
    (hi : i < sub.nodes.length) (d : Node) :
    (embedNodes sub offset ft).getD i d
      = embedNode offset ft (i == sub.final_idx) (sub.node i) := by
  rw [List.getD_eq_getElem?_getD, embedNodes, List.getElem?_map, List.getElem?_range hi]
  rfl

theorem mem_embedNodes {sub : NFA} {offset : Nat} {ft : List Nat} {n : Node}
    (h : n ∈ embedNodes sub offset ft) :
    ∃ i < sub.nodes.length, n = embedNode offset ft (i == sub.final_idx) (sub.node i) := by
  simp only [embedNodes, List.mem_map, List.mem_range] at h
  obtain ⟨i, hi, rfl⟩ := h
  exact ⟨i, hi, rfl⟩

theorem mem_embedNode {offset : Nat} {ft : List Nat} {isF : Bool} {n : Node}
    {l : Option Char} {t : Nat} :
    (l, t) ∈ (embedNode offset ft isF n).transitions ↔
      ((∃ t0, (l, t0) ∈ n.transitions ∧ t = t0 + offset) ∨
       (isF = true ∧ l = none ∧ t ∈ ft)) := by
  cases isF with
  | false =>
    simp only [embedNode, Node.new, Bool.false_eq_true, false_and, or_false, if_neg,
      List.mem_map, Prod.ext_iff, ite_false]
    constructor
    · rintro ⟨⟨a, b⟩, hm, rfl, rfl⟩
      exact ⟨b, hm, rfl⟩
    · rintro ⟨t0, hm, rfl⟩
      exact ⟨(l, t0), hm, rfl, rfl⟩
  | true =>
    simp only [embedNode, Node.new, List.mem_append, List.mem_map, Prod.ext_iff,
      true_and, ite_true]
    constructor
    · rintro (⟨⟨a, b⟩, hm, rfl, rfl⟩ | ⟨t0, hm, rfl, rfl⟩)
      · exact Or.inl ⟨b, hm, rfl⟩
      · exact Or.inr ⟨rfl, hm⟩
    · rintro (⟨t0, hm, rfl⟩ | ⟨rfl, hm⟩)
      · exact Or.inl ⟨(l, t0), hm, rfl, rfl⟩
      · exact Or.inr ⟨t, hm, rfl, rfl⟩

/-! Generic index computations for the four-block layout
`[start] ++ block1 ++ block2 ++ [accept]` used by `then` and `or`, and the
three-block layout `[start] ++ block ++ [accept]` used by `star`. -/

theorem getD_four_1 (s f : Node) (l1 l2 : List Node) {i : Nat} (hi : i < l1.length)
    (d : Node) : ((([s] ++ l1) ++ l2) ++ [f]).getD (1 + i) d = l1.getD i d := by
  rw [List.getD_eq_getElem?_getD, List.getD_eq_getElem?_getD]
  rw [List.getElem?_append_left (by simp <;> omega : 1 + i < (([s] ++ l1) ++ l2).length)]
  rw [List.getElem?_append_left (by simp <;> omega : 1 + i < ([s] ++ l1).length)]
  rw [List.getElem?_append_right (by simp : [s].length ≤ 1 + i)]
  have harith : 1 + i - [s].length = i := by simp
  rw [harith]

theorem getD_four_2 (s f : Node) (l1 l2 : List Node) {i : Nat} (hi : i < l2.length)
    (d : Node) :
    ((([s] ++ l1) ++ l2) ++ [f]).getD (1 + l1.length + i) d = l2.getD i d := by
  rw [List.getD_eq_getElem?_getD, List.getD_eq_getElem?_getD]
  rw [List.getElem?_append_left (by simp <;> omega : 1 + l1.length + i < (([s] ++ l1) ++ l2).length)]
  rw [List.getElem?_append_right (by simp <;> omega : ([s] ++ l1).length ≤ 1 + l1.length + i)]
  have harith : 1 + l1.length + i - ([s] ++ l1).length = i := by simp <;> omega
  rw [harith]

theorem getD_four_3 (s f : Node) (l1 l2 : List Node) (d : Node) :
    ((([s] ++ l1) ++ l2) ++ [f]).getD (l1.length + l2.length + 1) d = f := by
  rw [List.getD_eq_getElem?_getD]
  rw [List.getElem?_append_right
    (by simp <;> omega : (([s] ++ l1) ++ l2).length ≤ l1.length + l2.length + 1)]
  have harith : l1.length + l2.length + 1 - (([s] ++ l1) ++ l2).length = 0 := by
    simp <;> omega
  rw [harith]
  rfl

theorem getD_three_1 (s f : Node) (l1 : List Node) {i : Nat} (hi : i < l1.length)
    (d : Node) : (([s] ++ l1) ++ [f]).getD (1 + i) d = l1.getD i d := by
  rw [List.getD_eq_getElem?_getD, List.getD_eq_getElem?_getD]
  rw [List.getElem?_append_left (by simp <;> omega : 1 + i < ([s] ++ l1).length)]
  rw [List.getElem?_append_right (by simp : [s].length ≤ 1 + i)]
  have harith : 1 + i - [s].length = i := by simp
  rw [harith]

theorem getD_three_2 (s f : Node) (l1 : List Node) (d : Node) :
    (([s] ++ l1) ++ [f]).getD (l1.length + 1) d = f := by
  rw [List.getD_eq_getElem?_getD]
  rw [List.getElem?_append_right (by simp <;> omega : ([s] ++ l1).length ≤ l1.length + 1)]
  have harith : l1.length + 1 - ([s] ++ l1).length = 0 := by simp
  rw [harith]
  rfl

/-! Node lengths of the composite graphs. -/

theorem NFA.or_length (a b : NFA) :
    (NFA.or a b).nodes.length = a.nodes.length + b.nodes.length + 2 := by
  simp [NFA.or, embedNodes_length]
  omega

theorem NFA.then_length (a b : NFA) :
    (NFA.«then» a b).nodes.length = a.nodes.length + b.nodes.length + 2 := by
  simp [NFA.«then», embedNodes_length]
  omega

theorem NFA.star_length (a : NFA) :
    (NFA.star a).nodes.length = a.nodes.length + 2 := by
  simp [NFA.star, embedNodes_length]

/-! Node access inside `NFA.or`. -/

theorem NFA.or_node_zero (a b : NFA) :
    (NFA.or a b).node 0 = Node.new [(none, 1), (none, 1 + a.nodes.length)] := rfl

theorem NFA.or_node_left (a b : NFA) {i : Nat} (hi : i < a.nodes.length) :
    (NFA.or a b).node (1 + i)
      = embedNode 1 [a.nodes.length + b.nodes.length + 1] (i == a.final_idx) (a.node i) := by
  have h := getD_four_1 (Node.new [(none, 1), (none, 1 + a.nodes.length)]) (Node.new [])
    (embedNodes a 1 [a.nodes.length + b.nodes.length + 1])
    (embedNodes b (1 + a.nodes.length) [a.nodes.length + b.nodes.length + 1])
    (by rw [embedNodes_length]; exact hi) (⟨[]⟩ : Node)
  show ((([Node.new [(none, 1), (none, 1 + a.nodes.length)]]
      ++ embedNodes a 1 [a.nodes.length + b.nodes.length + 1])
      ++ embedNodes b (1 + a.nodes.length) [a.nodes.length + b.nodes.length + 1])
      ++ [Node.new []]).getD (1 + i) ⟨[]⟩ = _
  rw [h, getD_embedNodes a 1 _ hi]

theorem NFA.or_node_right (a b : NFA) {i : Nat} (hi : i < b.nodes.length) :
    (NFA.or a b).node (1 + a.nodes.length + i)
      = embedNode (1 + a.nodes.length) [a.nodes.length + b.nodes.length + 1]
          (i == b.final_idx) (b.node i) := by
  have h := getD_four_2 (Node.new [(none, 1), (none, 1 + a.nodes.length)]) (Node.new [])
    (embedNodes a 1 [a.nodes.length + b.nodes.length + 1])
    (embedNodes b (1 + a.nodes.length) [a.nodes.length + b.nodes.length + 1])
    (by rw [embedNodes_length]; exact hi) (⟨[]⟩ : Node)
  rw [embedNodes_length] at h
  show ((([Node.new [(none, 1), (none, 1 + a.nodes.length)]]
      ++ embedNodes a 1 [a.nodes.length + b.nodes.length + 1])
      ++ embedNodes b (1 + a.nodes.length) [a.nodes.length + b.nodes.length + 1])
      ++ [Node.new []]).getD (1 + a.nodes.length + i) ⟨[]⟩ = _
  rw [h, getD_embedNodes b _ _ hi]

theorem NFA.or_node_final (a b : NFA) :
    (NFA.or a b).node (a.nodes.length + b.nodes.length + 1) = Node.new [] := by
  have h := getD_four_3 (Node.new [(none, 1), (none, 1 + a.nodes.length)]) (Node.new [])
    (embedNodes a 1 [a.nodes.length + b.nodes.length + 1])
    (embedNodes b (1 + a.nodes.length) [a.nodes.length + b.nodes.length + 1])
    (⟨[]⟩ : Node)
  rw [embedNodes_length, embedNodes_length] at h
  show ((([Node.new [(none, 1), (none, 1 + a.nodes.length)]]
      ++ embedNodes a 1 [a.nodes.length + b.nodes.length + 1])
      ++ embedNodes b (1 + a.nodes.length) [a.nodes.length + b.nodes.length + 1])
      ++ [Node.new []]).getD (a.nodes.length + b.nodes.length + 1) ⟨[]⟩ = _
  rw [h]

/-! Node access inside `NFA.then`. -/

theorem NFA.then_node_zero (a b : NFA) :
    (NFA.«then» a b).node 0 = Node.new [(none, 1)] := rfl

theorem NFA.then_node_left (a b : NFA) {i : Nat} (hi : i < a.nodes.length) :
    (NFA.«then» a b).node (1 + i)
      = embedNode 1 [a.nodes.length + 1] (i == a.final_idx) (a.node i) := by
  have h := getD_four_1 (Node.new [(none, 1)]) (Node.new [])
    (embedNodes a 1 [a.nodes.length + 1])
    (embedNodes b (1 + a.nodes.length) [a.nodes.length + b.nodes.length + 1])
    (by rw [embedNodes_length]; exact hi) (⟨[]⟩ : Node)
  show ((([Node.new [(none, 1)]]
      ++ embedNodes a 1 [a.nodes.length + 1])
      ++ embedNodes b (1 + a.nodes.length) [a.nodes.length + b.nodes.length + 1])
      ++ [Node.new []]).getD (1 + i) ⟨[]⟩ = _
  rw [h, getD_embedNodes a 1 _ hi]

theorem NFA.then_node_right (a b : NFA) {i : Nat} (hi : i < b.nodes.length) :
    (NFA.«then» a b).node (1 + a.nodes.length + i)
      = embedNode (1 + a.nodes.length) [a.nodes.length + b.nodes.length + 1]
          (i == b.final_idx) (b.node i) := by
  have h := getD_four_2 (Node.new [(none, 1)]) (Node.new [])
    (embedNodes a 1 [a.nodes.length + 1])
    (embedNodes b (1 + a.nodes.length) [a.nodes.length + b.nodes.length + 1])
    (by rw [embedNodes_length]; exact hi) (⟨[]⟩ : Node)
  rw [embedNodes_length] at h
  show ((([Node.new [(none, 1)]]
      ++ embedNodes a 1 [a.nodes.length + 1])
      ++ embedNodes b (1 + a.nodes.length) [a.nodes.length + b.nodes.length + 1])
      ++ [Node.new []]).getD (1 + a.nodes.length + i) ⟨[]⟩ = _
  rw [h, getD_embedNodes b _ _ hi]

theorem NFA.then_node_final (a b : NFA) :
    (NFA.«then» a b).node (a.nodes.length + b.nodes.length + 1) = Node.new [] := by
  have h := getD_four_3 (Node.new [(none, 1)]) (Node.new [])
    (embedNodes a 1 [a.nodes.length + 1])
    (embedNodes b (1 + a.nodes.length) [a.nodes.length + b.nodes.length + 1])
    (⟨[]⟩ : Node)
  rw [embedNodes_length, embedNodes_length] at h
  show ((([Node.new [(none, 1)]]
      ++ embedNodes a 1 [a.nodes.length + 1])
      ++ embedNodes b (1 + a.nodes.length) [a.nodes.length + b.nodes.length + 1])
      ++ [Node.new []]).getD (a.nodes.length + b.nodes.length + 1) ⟨[]⟩ = _
  rw [h]

/-! Node access inside `NFA.star`. -/

theorem NFA.star_node_zero (a : NFA) :
    (NFA.star a).node 0 = Node.new [(none, 1), (none, a.nodes.length + 1)] := rfl

theorem NFA.star_node_mid (a : NFA) {i : Nat} (hi : i < a.nodes.length) :
    (NFA.star a).node (1 + i)
      = embedNode 1 [a.nodes.length + 1, 0] (i == a.final_idx) (a.node i) := by
  have h := getD_three_1 (Node.new [(none, 1), (none, a.nodes.length + 1)]) (Node.new [])
    (embedNodes a 1 [a.nodes.length + 1, 0])
    (by rw [embedNodes_length]; exact hi) (⟨[]⟩ : Node)
  show (([Node.new [(none, 1), (none, a.nodes.length + 1)]]
      ++ embedNodes a 1 [a.nodes.length + 1, 0])
      ++ [Node.new []]).getD (1 + i) ⟨[]⟩ = _
  rw [h, getD_embedNodes a 1 _ hi]

theorem NFA.star_node_final (a : NFA) :
    (NFA.star a).node (a.nodes.length + 1) = Node.new [] := by
  have h := getD_three_2 (Node.new [(none, 1), (none, a.nodes.length + 1)]) (Node.new [])
    (embedNodes a 1 [a.nodes.length + 1, 0]) (⟨[]⟩ : Node)
  rw [embedNodes_length] at h
  show (([Node.new [(none, 1), (none, a.nodes.length + 1)]]
      ++ embedNodes a 1 [a.nodes.length + 1, 0])
      ++ [Node.new []]).getD (a.nodes.length + 1) ⟨[]⟩ = _
  rw [h]

/-! ## The shape invariant holds for every compiled NFA -/

theorem targets_embedNodes {sub : NFA} (hsub : sub.targetsOk) {offset : Nat}
    {ft : List Nat} {N : Nat} (hoff : offset + sub.nodes.length ≤ N)
    (hft : ∀ t ∈ ft, t < N) {n : Node} (hn : n ∈ embedNodes sub offset ft) :
    ∀ p ∈ n.transitions, p.2 < N := by
  obtain ⟨i, hi, rfl⟩ := mem_embedNodes hn
  rintro ⟨l, t⟩ hmem
  rcases mem_embedNode.mp hmem with ⟨t0, hm, rfl⟩ | ⟨_, _, hin⟩
  · have ht0 := NFA.targets_lt hsub hm
    simp only
    omega
  · exact hft _ hin

theorem NFA.canonical_empty : NFA.empty.Canonical := by
  refine ⟨rfl, rfl, by simp [NFA.empty], ?_, rfl⟩
  intro n hn p hp
  simp only [NFA.empty, Node.new, List.mem_cons, List.not_mem_nil, or_false] at hn
  rcases hn with rfl | rfl
  · simp only [List.mem_singleton] at hp
    subst hp
    simp [NFA.empty]
  · simp at hp

theorem NFA.canonical_single (a : Char) : (NFA.single a).Canonical := by
  refine ⟨rfl, rfl, by simp [NFA.single], ?_, rfl⟩
  intro n hn p hp
  simp only [NFA.single, Node.new, List.mem_cons, List.not_mem_nil, or_false] at hn
  rcases hn with rfl | rfl
  · simp only [List.mem_singleton] at hp
    subst hp
    simp [NFA.single]
  · simp at hp

theorem NFA.canonical_or {a b : NFA} (ha : a.Canonical) (hb : b.Canonical) :
    (NFA.or a b).Canonical := by
  refine ⟨rfl, ?_, ?_, ?_, ?_⟩
  · rw [NFA.or_length]
    rfl
  · rw [NFA.or_length]
    omega
  · intro n hn p hp
    rw [NFA.or_length]
    have hn' : n ∈ ((([Node.new [(none, 1), (none, 1 + a.nodes.length)]]
        ++ embedNodes a 1 [a.nodes.length + b.nodes.length + 1])
        ++ embedNodes b (1 + a.nodes.length) [a.nodes.length + b.nodes.length + 1])
        ++ [Node.new []]) := hn
    simp only [List.mem_append, List.mem_singleton] at hn'
    rcases hn' with ((rfl | hEa) | hEb) | rfl
    · simp only [Node.new, List.mem_cons, List.not_mem_nil, or_false] at hp
      rcases hp with rfl | rfl
      · show (1:Nat) < a.nodes.length + b.nodes.length + 2
        omega
      · show 1 + a.nodes.length < a.nodes.length + b.nodes.length + 2
        omega
    · exact targets_embedNodes ha.targets (by omega)
        (by intro t ht; simp only [List.mem_singleton] at ht; omega) hEa p hp
    · exact targets_embedNodes hb.targets (by omega)
        (by intro t ht; simp only [List.mem_singleton] at ht; omega) hEb p hp
    · simp [Node.new] at hp
  · show ((NFA.or a b).node (a.nodes.length + b.nodes.length + 1)).transitions = []
    rw [NFA.or_node_final]
    rfl

theorem NFA.canonical_then {a b : NFA} (ha : a.Canonical) (hb : b.Canonical) :
    (NFA.«then» a b).Canonical := by
  refine ⟨rfl, ?_, ?_, ?_, ?_⟩
  · rw [NFA.then_length]
    rfl
  · rw [NFA.then_length]
    omega
  · intro n hn p hp
    rw [NFA.then_length]
    have hn' : n ∈ ((([Node.new [(none, 1)]]
        ++ embedNodes a 1 [a.nodes.length + 1])
        ++ embedNodes b (1 + a.nodes.length) [a.nodes.length + b.nodes.length + 1])
        ++ [Node.new []]) := hn
    simp only [List.mem_append, List.mem_singleton] at hn'
    rcases hn' with ((rfl | hEa) | hEb) | rfl
    · simp only [Node.new, List.mem_singleton] at hp
      subst hp
      show (1:Nat) < a.nodes.length + b.nodes.length + 2
      omega
    · exact targets_embedNodes ha.targets (by omega)
        (by intro t ht; simp only [List.mem_singleton] at ht; omega) hEa p hp
    · exact targets_embedNodes hb.targets (by omega)
        (by intro t ht; simp only [List.mem_singleton] at ht; omega) hEb p hp
    · simp [Node.new] at hp
  · show ((NFA.«then» a b).node (a.nodes.length + b.nodes.length + 1)).transitions = []
    rw [NFA.then_node_final]
    rfl

theorem NFA.canonical_star {a : NFA} (ha : a.Canonical) :
    (NFA.star a).Canonical := by
  refine ⟨rfl, ?_, ?_, ?_, ?_⟩
  · rw [NFA.star_length]
    rfl
  · rw [NFA.star_length]
    omega
  · intro n hn p hp
    rw [NFA.star_length]
    have hn' : n ∈ (([Node.new [(none, 1), (none, a.nodes.length + 1)]]
        ++ embedNodes a 1 [a.nodes.length + 1, 0])
        ++ [Node.new []]) := hn
    simp only [List.mem_append, List.mem_singleton] at hn'
    rcases hn' with (rfl | hEa) | rfl
    · simp only [Node.new, List.mem_cons, List.not_mem_nil, or_false] at hp
      rcases hp with rfl | rfl
      · show (1:Nat) < a.nodes.length + 2
        omega
      · show a.nodes.length + 1 < a.nodes.length + 2
        omega
    · exact targets_embedNodes ha.targets (by omega)
        (by intro t ht; simp only [List.mem_cons, List.not_mem_nil, or_false] at ht;
            rcases ht with rfl | rfl <;> omega) hEa p hp
    · simp [Node.new] at hp
  · show ((NFA.star a).node (a.nodes.length + 1)).transitions = []
    rw [NFA.star_node_final]
    rfl

theorem NFA.canonical_from_regex (p : Regex) : (NFA.from_regex p).Canonical := by
  induction p with
  | Empty => exact NFA.canonical_empty
  | Single c => exact NFA.canonical_single c
  | Or r s ihr ihs => exact NFA.canonical_or ihr ihs
  | Then r s ihr ihs => exact NFA.canonical_then ihr ihs
  | Star r ihr => exact NFA.canonical_star ihr

theorem NFA.from_regex_length (p : Regex) :
    (NFA.from_regex p).nodes.length = 2 * p.size := by
  induction p with
  | Empty => rfl
  | Single c => rfl
  | Or r s ihr ihs =>
    show (NFA.or _ _).nodes.length = _
    rw [NFA.or_length, ihr, ihs]
    simp [Regex.size]
    omega
  | Then r s ihr ihs =>
    show (NFA.«then» _ _).nodes.length = _
    rw [NFA.then_length, ihr, ihs]
    simp [Regex.size]
    omega
  | Star r ihr =>
    show (NFA.star _).nodes.length = _
    rw [NFA.star_length, ihr]
    simp [Regex.size]
    omega

/-! ## Languages of the base constructions -/

theorem NFA.path_nil_of_no_trans {m : NFA} {i j : Nat} {xs : List Char}
    (h : m.Path i xs j) (hnil : (m.node i).transitions = []) : xs = [] ∧ j = i := by
  cases h with
  | refl _ => exact ⟨rfl, rfl⟩
  | eps hmem _ =>
    rw [hnil] at hmem
    simp at hmem
  | symb hmem _ =>
    rw [hnil] at hmem
    simp at hmem

theorem NFA.lt_of_trans_mem {m : NFA} {i : Nat} {l : Option Char} {t : Nat}
    (h : (l, t) ∈ (m.node i).transitions) : i < m.nodes.length := by
  by_contra hge
  have hnode : m.node i = ⟨[]⟩ := by
    unfold NFA.node
    rw [List.getD_eq_default _ _ (Nat.le_of_not_lt hge)]
  rw [hnode] at h
  simp at h

theorem NFA.Path.eps_tail {m : NFA} {i j k : Nat} {xs : List Char}
    (h : m.Path i xs j) (hmem : (none, k) ∈ (m.node j).transitions) : m.Path i xs k := by
  have happ := h.append (NFA.Path.eps hmem (NFA.Path.refl k))
  simpa using happ

theorem NFA.path_embed {M sub : NFA} {off : Nat}
    (H : ∀ i l t, (l, t) ∈ (sub.node i).transitions →
        (l, off + t) ∈ (M.node (off + i)).transitions)
    {i j : Nat} {xs : List Char} (h : sub.Path i xs j) :
    M.Path (off + i) xs (off + j) := by
  induction h with
  | refl _ => exact NFA.Path.refl _
  | eps hmem _ ih => exact NFA.Path.eps (H _ _ _ hmem) ih
  | symb hmem _ ih => exact NFA.Path.symb (H _ _ _ hmem) ih

theorem NFA.empty_lang (xs : List Char) : NFA.empty.Lang xs ↔ xs = [] := by
  have hnode0 : (NFA.empty.node 0).transitions = [(none, 1)] := rfl
  have hnode1 : (NFA.empty.node 1).transitions = [] := rfl
  have hL : NFA.empty.Lang xs ↔ NFA.empty.Path 0 xs 1 := Iff.rfl
  rw [hL]
  constructor
  · intro h
    cases h with
    | eps hmem hp =>
      rw [hnode0] at hmem
      simp only [List.mem_singleton, Prod.mk.injEq, true_and] at hmem
      subst hmem
      exact (NFA.path_nil_of_no_trans hp hnode1).1
    | symb hmem _ =>
      rw [hnode0] at hmem
      simp at hmem
  · intro h
    subst h
    exact NFA.Path.eps (by rw [hnode0]; simp) (NFA.Path.refl 1)

theorem NFA.single_lang (a : Char) (xs : List Char) :
    (NFA.single a).Lang xs ↔ xs = [a] := by
  have hnode0 : ((NFA.single a).node 0).transitions = [(some a, 1)] := rfl
  have hnode1 : ((NFA.single a).node 1).transitions = [] := rfl
  have hL : (NFA.single a).Lang xs ↔ (NFA.single a).Path 0 xs 1 := Iff.rfl
  rw [hL]
  constructor
  · intro h
    cases h with
    | eps hmem _ =>
      rw [hnode0] at hmem
      simp at hmem
    | symb hmem hp =>
      rw [hnode0] at hmem
      simp only [List.mem_singleton, Prod.mk.injEq, Option.some.injEq] at hmem
      obtain ⟨rfl, rfl⟩ := hmem
      have := (NFA.path_nil_of_no_trans hp hnode1).1
      rw [this]
  · intro h
    subst h
    exact NFA.Path.symb (by rw [hnode0]; simp) (NFA.Path.refl 1)

/-! ## Language of `NFA.or` -/

theorem NFA.or_embedA {a b : NFA} :
    ∀ i l t, (l, t) ∈ (a.node i).transitions →
      (l, 1 + t) ∈ ((NFA.or a b).node (1 + i)).transitions := by
  intro i l t hm
  have hi := NFA.lt_of_trans_mem hm
  rw [NFA.or_node_left a b hi]
  exact mem_embedNode.mpr (Or.inl ⟨t, hm, by omega⟩)

theorem NFA.or_embedB {a b : NFA} :
    ∀ i l t, (l, t) ∈ (b.node i).transitions →
      (l, 1 + a.nodes.length + t) ∈
        ((NFA.or a b).node (1 + a.nodes.length + i)).transitions := by
  intro i l t hm
  have hi := NFA.lt_of_trans_mem hm
  rw [NFA.or_node_right a b hi]
  exact mem_embedNode.mpr (Or.inl ⟨t, hm, by omega⟩)

theorem NFA.or_path_cases {a b : NFA} (ha : a.Canonical) (hb : b.Canonical)
    {p q : Nat} {xs : List Char} (h : (NFA.or a b).Path p xs q) :
    q = a.nodes.length + b.nodes.length + 1 →
    ((p = 0 → (a.Path 0 xs a.final_idx ∨ b.Path 0 xs b.final_idx)) ∧
     (∀ i, i < a.nodes.length → p = 1 + i → a.Path i xs a.final_idx) ∧
     (∀ i, i < b.nodes.length → p = 1 + a.nodes.length + i → b.Path i xs b.final_idx) ∧
     (p = a.nodes.length + b.nodes.length + 1 → xs = [])) := by
  have h2a := ha.two_le
  have h2b := hb.two_le
  have hafin : a.final_idx = a.nodes.length - 1 := ha.final_eq
  have hbfin : b.final_idx = b.nodes.length - 1 := hb.final_eq
  induction h with
  | refl p =>
    intro hq
    refine ⟨?_, ?_, ?_, fun _ => rfl⟩
    · intro h0
      omega
    · intro i hi hp
      omega
    · intro i hi hp
      omega
  | @eps p j q' xs hmem hp ih =>
    intro hq
    have ihq := ih hq
    refine ⟨?_, ?_, ?_, ?_⟩
    · rintro rfl
      rw [NFA.or_node_zero] at hmem
      simp only [Node.new, List.mem_cons, List.not_mem_nil, or_false,
        Prod.mk.injEq, true_and] at hmem
      rcases hmem with rfl | rfl
      · exact Or.inl (ihq.2.1 0 (by omega) rfl)
      · exact Or.inr (ihq.2.2.1 0 (by omega) (by omega))
    · rintro i hi rfl
      rw [NFA.or_node_left a b hi] at hmem
      rcases mem_embedNode.mp hmem with ⟨t0, hm, ht⟩ | ⟨hflag, _, hin⟩
      · have ht0 := NFA.targets_lt ha.targets hm
        exact NFA.Path.eps hm (ihq.2.1 t0 ht0 (by omega))
      · simp only [List.mem_singleton] at hin
        have hxs := ihq.2.2.2 (by omega)
        subst hxs
        have hif : i = a.final_idx := by
          rwa [beq_iff_eq] at hflag
        rw [hif]
        exact NFA.Path.refl _
    · rintro i hi rfl
      rw [NFA.or_node_right a b hi] at hmem
      rcases mem_embedNode.mp hmem with ⟨t0, hm, ht⟩ | ⟨hflag, _, hin⟩
      · have ht0 := NFA.targets_lt hb.targets hm
        exact NFA.Path.eps hm (ihq.2.2.1 t0 ht0 (by omega))
      · simp only [List.mem_singleton] at hin
        have hxs := ihq.2.2.2 (by omega)
        subst hxs
        have hif : i = b.final_idx := by
          rwa [beq_iff_eq] at hflag
        rw [hif]
        exact NFA.Path.refl _
    · rintro rfl
      rw [NFA.or_node_final] at hmem
      simp [Node.new] at hmem
  | @symb p j q' c xs hmem hp ih =>
    intro hq
    have ihq := ih hq
    refine ⟨?_, ?_, ?_, ?_⟩
    · rintro rfl
      rw [NFA.or_node_zero] at hmem
      simp [Node.new] at hmem
    · rintro i hi rfl
      rw [NFA.or_node_left a b hi] at hmem
      rcases mem_embedNode.mp hmem with ⟨t0, hm, ht⟩ | ⟨_, hl, _⟩
      · have ht0 := NFA.targets_lt ha.targets hm
        exact NFA.Path.symb hm (ihq.2.1 t0 ht0 (by omega))
      · exact absurd hl (by simp)
    · rintro i hi rfl
      rw [NFA.or_node_right a b hi] at hmem
      rcases mem_embedNode.mp hmem with ⟨t0, hm, ht⟩ | ⟨_, hl, _⟩
      · have ht0 := NFA.targets_lt hb.targets hm
        exact NFA.Path.symb hm (ihq.2.2.1 t0 ht0 (by omega))
      · exact absurd hl (by simp)
    · rintro rfl
      rw [NFA.or_node_final] at hmem
      simp [Node.new] at hmem

theorem NFA.or_lang {a b : NFA} (ha : a.Canonical) (hb : b.Canonical) (xs : List Char) :
    (NFA.or a b).Lang xs ↔ (a.Lang xs ∨ b.Lang xs) := by
  have h2a := ha.two_le
  have hafin : a.final_idx = a.nodes.length - 1 := ha.final_eq
  have hbfin : b.final_idx = b.nodes.length - 1 := hb.final_eq
  have hL : (NFA.or a b).Lang xs ↔
      (NFA.or a b).Path 0 xs (a.nodes.length + b.nodes.length + 1) := Iff.rfl
  rw [hL]
  constructor
  · intro h
    have hc := (NFA.or_path_cases ha hb h rfl).1 rfl
    rcases hc with h | h
    · left
      unfold NFA.Lang
      rw [ha.start_eq]
      exact h
    · right
      unfold NFA.Lang
      rw [hb.start_eq]
      exact h
  · intro h
    rcases h with h | h
    · have hpa : a.Path 0 xs a.final_idx := by
        unfold NFA.Lang at h
        rwa [ha.start_eq] at h
      have hlift := NFA.path_embed (@NFA.or_embedA a b) hpa
      have he1 : ((none : Option Char), 1) ∈ ((NFA.or a b).node 0).transitions := by
        rw [NFA.or_node_zero]
        simp [Node.new]
      have hfa : a.final_idx < a.nodes.length := by omega
      have he2 : ((none : Option Char), a.nodes.length + b.nodes.length + 1) ∈
          ((NFA.or a b).node (1 + a.final_idx)).transitions := by
        rw [NFA.or_node_left a b hfa]
        exact mem_embedNode.mpr (Or.inr ⟨by simp, rfl, by simp⟩)
      exact NFA.Path.eps he1 (hlift.eps_tail he2)
    · have hpb : b.Path 0 xs b.final_idx := by
        unfold NFA.Lang at h
        rwa [hb.start_eq] at h
      have hlift := NFA.path_embed (@NFA.or_embedB a b) hpb
      have he1 : ((none : Option Char), 1 + a.nodes.length) ∈
          ((NFA.or a b).node 0).transitions := by
        rw [NFA.or_node_zero]
        simp [Node.new]
      have hfb : b.final_idx < b.nodes.length := by
        have := hb.two_le
        omega
      have he2 : ((none : Option Char), a.nodes.length + b.nodes.length + 1) ∈
          ((NFA.or a b).node (1 + a.nodes.length + b.final_idx)).transitions := by
        rw [NFA.or_node_right a b hfb]
        exact mem_embedNode.mpr (Or.inr ⟨by simp, rfl, by simp⟩)
      exact NFA.Path.eps he1 (hlift.eps_tail he2)

/-! ## Language of `NFA.then` -/

theorem NFA.then_embedA {a b : NFA} :
    ∀ i l t, (l, t) ∈ (a.node i).transitions →
      (l, 1 + t) ∈ ((NFA.«then» a b).node (1 + i)).transitions := by
  intro i l t hm
  have hi := NFA.lt_of_trans_mem hm
  rw [NFA.then_node_left a b hi]
  exact mem_embedNode.mpr (Or.inl ⟨t, hm, by omega⟩)

theorem NFA.then_embedB {a b : NFA} :
    ∀ i l t, (l, t) ∈ (b.node i).transitions →
      (l, 1 + a.nodes.length + t) ∈
        ((NFA.«then» a b).node (1 + a.nodes.length + i)).transitions := by
  intro i l t hm
  have hi := NFA.lt_of_trans_mem hm
  rw [NFA.then_node_right a b hi]
  exact mem_embedNode.mpr (Or.inl ⟨t, hm, by omega⟩)

theorem NFA.then_path_cases {a b : NFA} (ha : a.Canonical) (hb : b.Canonical)
    {p q : Nat} {xs : List Char} (h : (NFA.«then» a b).Path p xs q) :
    q = a.nodes.length + b.nodes.length + 1 →
    ((p = 0 → ∃ u v, xs = u ++ v ∧ a.Path 0 u a.final_idx ∧ b.Path 0 v b.final_idx) ∧
     (∀ i, i < a.nodes.length → p = 1 + i →
        ∃ u v, xs = u ++ v ∧ a.Path i u a.final_idx ∧ b.Path 0 v b.final_idx) ∧
     (∀ i, i < b.nodes.length → p = 1 + a.nodes.length + i → b.Path i xs b.final_idx) ∧
     (p = a.nodes.length + b.nodes.length + 1 → xs = [])) := by
  have h2a := ha.two_le
  have h2b := hb.two_le
  have hafin : a.final_idx = a.nodes.length - 1 := ha.final_eq
  have hbfin : b.final_idx = b.nodes.length - 1 := hb.final_eq
  induction h with
  | refl p =>
    intro hq
    refine ⟨?_, ?_, ?_, fun _ => rfl⟩
    · intro h0
      omega
    · intro i hi hp
      omega
    · intro i hi hp
      omega
  | @eps p j q' xs hmem hp ih =>
    intro hq
    have ihq := ih hq
    refine ⟨?_, ?_, ?_, ?_⟩
    · rintro rfl
      rw [NFA.then_node_zero] at hmem
      simp only [Node.new, List.mem_singleton, Prod.mk.injEq, true_and] at hmem
      subst hmem
      exact ihq.2.1 0 (by omega) rfl
    · rintro i hi rfl
      rw [NFA.then_node_left a b hi] at hmem
      rcases mem_embedNode.mp hmem with ⟨t0, hm, ht⟩ | ⟨hflag, _, hin⟩
      · have ht0 := NFA.targets_lt ha.targets hm
        obtain ⟨u, v, happ, hpa, hpb⟩ := ihq.2.1 t0 ht0 (by omega)
        exact ⟨u, v, happ, NFA.Path.eps hm hpa, hpb⟩
      · simp only [List.mem_singleton] at hin
        have hpb := ihq.2.2.1 0 (by omega) (by omega)
        have hif : i = a.final_idx := by
          rwa [beq_iff_eq] at hflag
        subst hif
        exact ⟨[], xs, rfl, NFA.Path.refl _, hpb⟩
    · rintro i hi rfl
      rw [NFA.then_node_right a b hi] at hmem
      rcases mem_embedNode.mp hmem with ⟨t0, hm, ht⟩ | ⟨hflag, _, hin⟩
      · have ht0 := NFA.targets_lt hb.targets hm
        exact NFA.Path.eps hm (ihq.2.2.1 t0 ht0 (by omega))
      · simp only [List.mem_singleton] at hin
        have hxs := ihq.2.2.2 (by omega)
        subst hxs
        have hif : i = b.final_idx := by
          rwa [beq_iff_eq] at hflag
        rw [hif]
        exact NFA.Path.refl _
    · rintro rfl
      rw [NFA.then_node_final] at hmem
      simp [Node.new] at hmem
  | @symb p j q' c xs hmem hp ih =>
    intro hq
    have ihq := ih hq
    refine ⟨?_, ?_, ?_, ?_⟩
    · rintro rfl
      rw [NFA.then_node_zero] at hmem
      simp [Node.new] at hmem
    · rintro i hi rfl
      rw [NFA.then_node_left a b hi] at hmem
      rcases mem_embedNode.mp hmem with ⟨t0, hm, ht⟩ | ⟨_, hl, _⟩
      · have ht0 := NFA.targets_lt ha.targets hm
        obtain ⟨u, v, happ, hpa, hpb⟩ := ihq.2.1 t0 ht0 (by omega)
        refine ⟨c :: u, v, ?_, NFA.Path.symb hm hpa, hpb⟩
        rw [happ]
        rfl
      · exact absurd hl (by simp)
    · rintro i hi rfl
      rw [NFA.then_node_right a b hi] at hmem
      rcases mem_embedNode.mp hmem with ⟨t0, hm, ht⟩ | ⟨_, hl, _⟩
      · have ht0 := NFA.targets_lt hb.targets hm
        exact NFA.Path.symb hm (ihq.2.2.1 t0 ht0 (by omega))
      · exact absurd hl (by simp)
    · rintro rfl
      rw [NFA.then_node_final] at hmem
      simp [Node.new] at hmem

theorem NFA.then_lang {a b : NFA} (ha : a.Canonical) (hb : b.Canonical) (xs : List Char) :
    (NFA.«then» a b).Lang xs ↔ ∃ u v, xs = u ++ v ∧ a.Lang u ∧ b.Lang v := by
  have h2a := ha.two_le
  have h2b := hb.two_le
  have hafin : a.final_idx = a.nodes.length - 1 := ha.final_eq
  have hbfin : b.final_idx = b.nodes.length - 1 := hb.final_eq
  have hL : (NFA.«then» a b).Lang xs ↔
      (NFA.«then» a b).Path 0 xs (a.nodes.length + b.nodes.length + 1) := Iff.rfl
  rw [hL]
  constructor
  · intro h
    obtain ⟨u, v, happ, hpa, hpb⟩ := (NFA.then_path_cases ha hb h rfl).1 rfl
    refine ⟨u, v, happ, ?_, ?_⟩
    · unfold NFA.Lang
      rw [ha.start_eq]
      exact hpa
    · unfold NFA.Lang
      rw [hb.start_eq]
      exact hpb
  · rintro ⟨u, v, happ, hu, hv⟩
    have hpa : a.Path 0 u a.final_idx := by
      unfold NFA.Lang at hu
      rwa [ha.start_eq] at hu
    have hpb : b.Path 0 v b.final_idx := by
      unfold NFA.Lang at hv
      rwa [hb.start_eq] at hv
    have hliftA := NFA.path_embed (@NFA.then_embedA a b) hpa
    have hliftB := NFA.path_embed (@NFA.then_embedB a b) hpb
    have he1 : ((none : Option Char), 1) ∈ ((NFA.«then» a b).node 0).transitions := by
      rw [NFA.then_node_zero]
      simp [Node.new]
    have hfa : a.final_idx < a.nodes.length := by omega
    have he2 : ((none : Option Char), a.nodes.length + 1) ∈
        ((NFA.«then» a b).node (1 + a.final_idx)).transitions := by
      rw [NFA.then_node_left a b hfa]
      exact mem_embedNode.mpr (Or.inr ⟨by simp, rfl, by simp⟩)
    have hfb : b.final_idx < b.nodes.length := by omega
    have he3 : ((none : Option Char), a.nodes.length + b.nodes.length + 1) ∈
        ((NFA.«then» a b).node (1 + a.nodes.length + b.final_idx)).transitions := by
      rw [NFA.then_node_right a b hfb]
      exact mem_embedNode.mpr (Or.inr ⟨by simp, rfl, by simp⟩)
    have hX0 : (NFA.«then» a b).Path (1 + a.nodes.length + 0) v
        (a.nodes.length + b.nodes.length + 1) := hliftB.eps_tail he3
    have hcast : 1 + a.nodes.length + 0 = a.nodes.length + 1 := by omega
    rw [hcast] at hX0
    have hXa : (NFA.«then» a b).Path (1 + 0) (u ++ v)
        (a.nodes.length + b.nodes.length + 1) :=
      hliftA.append (NFA.Path.eps he2 hX0)
    rw [happ]
    exact NFA.Path.eps he1 hXa

/-! ## Language of `NFA.star` -/

theorem Lstar_congr {L L' : List Char → Prop} (h : ∀ u, L u ↔ L' u) {xs : List Char} :
    Lstar L xs → Lstar L' xs := by
  intro hx
  induction hx with
  | nil => exact Lstar.nil
  | cons hu _ ih => exact Lstar.cons ((h _).mp hu) ih

theorem NFA.star_embedA {a : NFA} :
    ∀ i l t, (l, t) ∈ (a.node i).transitions →
      (l, 1 + t) ∈ ((NFA.star a).node (1 + i)).transitions := by
  intro i l t hm
  have hi := NFA.lt_of_trans_mem hm
  rw [NFA.star_node_mid a hi]
  exact mem_embedNode.mpr (Or.inl ⟨t, hm, by omega⟩)

theorem NFA.star_path_cases {a : NFA} (ha : a.Canonical)
    {p q : Nat} {xs : List Char} (h : (NFA.star a).Path p xs q) :
    q = a.nodes.length + 1 →
    ((p = 0 → Lstar (fun u => a.Path 0 u a.final_idx) xs) ∧
     (∀ i, i < a.nodes.length → p = 1 + i →
        ∃ u v, xs = u ++ v ∧ a.Path i u a.final_idx ∧
          Lstar (fun w => a.Path 0 w a.final_idx) v) ∧
     (p = a.nodes.length + 1 → xs = [])) := by
  have h2a := ha.two_le
  have hafin : a.final_idx = a.nodes.length - 1 := ha.final_eq
  induction h with
  | refl p =>
    intro hq
    refine ⟨?_, ?_, fun _ => rfl⟩
    · intro h0
      omega
    · intro i hi hp
      omega
  | @eps p j q' xs hmem hp ih =>
    intro hq
    have ihq := ih hq
    refine ⟨?_, ?_, ?_⟩
    · rintro rfl
      rw [NFA.star_node_zero] at hmem
      simp only [Node.new, List.mem_cons, List.not_mem_nil, or_false,
        Prod.mk.injEq, true_and] at hmem
      rcases hmem with rfl | rfl
      · obtain ⟨u, v, happ, hpa, hstar⟩ := ihq.2.1 0 (by omega) rfl
        rw [happ]
        exact Lstar.cons hpa hstar
      · have hxs := ihq.2.2 rfl
        subst hxs
        exact Lstar.nil
    · rintro i hi rfl
      rw [NFA.star_node_mid a hi] at hmem
      rcases mem_embedNode.mp hmem with ⟨t0, hm, ht⟩ | ⟨hflag, _, hin⟩
      · have ht0 := NFA.targets_lt ha.targets hm
        obtain ⟨u, v, happ, hpa, hstar⟩ := ihq.2.1 t0 ht0 (by omega)
        exact ⟨u, v, happ, NFA.Path.eps hm hpa, hstar⟩
      · simp only [List.mem_cons, List.mem_singleton, List.not_mem_nil, or_false] at hin
        have hif : i = a.final_idx := by
          rwa [beq_iff_eq] at hflag
        rcases hin with rfl | rfl
        · have hxs := ihq.2.2 rfl
          subst hxs
          subst hif
          exact ⟨[], [], rfl, NFA.Path.refl _, Lstar.nil⟩
        · have hstar := ihq.1 rfl
          subst hif
          exact ⟨[], xs, rfl, NFA.Path.refl _, hstar⟩
    · rintro rfl
      rw [NFA.star_node_final] at hmem
      simp [Node.new] at hmem
  | @symb p j q' c xs hmem hp ih =>
    intro hq
    have ihq := ih hq
    refine ⟨?_, ?_, ?_⟩
    · rintro rfl
      rw [NFA.star_node_zero] at hmem
      simp [Node.new] at hmem
    · rintro i hi rfl
      rw [NFA.star_node_mid a hi] at hmem
      rcases mem_embedNode.mp hmem with ⟨t0, hm, ht⟩ | ⟨_, hl, _⟩
      · have ht0 := NFA.targets_lt ha.targets hm
        obtain ⟨u, v, happ, hpa, hstar⟩ := ihq.2.1 t0 ht0 (by omega)
        refine ⟨c :: u, v, ?_, NFA.Path.symb hm hpa, hstar⟩
        rw [happ]
        rfl
      · exact absurd hl (by simp)
    · rintro rfl
      rw [NFA.star_node_final] at hmem
      simp [Node.new] at hmem

theorem NFA.star_lang_mpr {a : NFA} (ha : a.Canonical) {xs : List Char}
    (h : Lstar a.Lang xs) :
    (NFA.star a).Path 0 xs (a.nodes.length + 1) := by
  have h2a := ha.two_le
  have hafin : a.final_idx = a.nodes.length - 1 := ha.final_eq
  have he1 : ((none : Option Char), 1) ∈ ((NFA.star a).node 0).transitions := by
    rw [NFA.star_node_zero]
    simp [Node.new]
  have heF : ((none : Option Char), a.nodes.length + 1) ∈
      ((NFA.star a).node 0).transitions := by
    rw [NFA.star_node_zero]
    simp [Node.new]
  have hfa : a.final_idx < a.nodes.length := by omega
  have he0 : ((none : Option Char), 0) ∈
      ((NFA.star a).node (1 + a.final_idx)).transitions := by
    rw [NFA.star_node_mid a hfa]
    exact mem_embedNode.mpr (Or.inr ⟨by simp, rfl, by simp⟩)
  induction h with
  | nil => exact NFA.Path.eps heF (NFA.Path.refl _)
  | @cons u v hu _ ih =>
    have hpa : a.Path 0 u a.final_idx := by
      unfold NFA.Lang at hu
      rwa [ha.start_eq] at hu
    have hlift := NFA.path_embed (@NFA.star_embedA a) hpa
    have hback : (NFA.star a).Path (1 + 0) u 0 := hlift.eps_tail he0
    exact NFA.Path.eps he1 (hback.append ih)

theorem NFA.star_lang {a : NFA} (ha : a.Canonical) (xs : List Char) :
    (NFA.star a).Lang xs ↔ Lstar a.Lang xs := by
  have hiff : ∀ u, a.Path 0 u a.final_idx ↔ a.Lang u := by
    intro u
    unfold NFA.Lang
    rw [ha.start_eq]
  have hL : (NFA.star a).Lang xs ↔
      (NFA.star a).Path 0 xs (a.nodes.length + 1) := Iff.rfl
  rw [hL]
  constructor
  · intro h
    exact Lstar_congr hiff ((NFA.star_path_cases ha h rfl).1 rfl)
  · exact NFA.star_lang_mpr ha

/-! ## Compiler correctness -/

theorem Regex.matches_empty_iff {xs : List Char} :
    Regex.Matches Regex.Empty xs ↔ xs = [] := by
  constructor
  · intro h
    cases h
    rfl
  · intro h
    subst h
    exact Regex.Matches.empty

theorem Regex.matches_single_iff {c : Char} {xs : List Char} :
    Regex.Matches (Regex.Single c) xs ↔ xs = [c] := by
  constructor
  · intro h
    cases h
    rfl
  · intro h
    subst h
    exact Regex.Matches.single c

theorem Regex.matches_or_iff {r s : Regex} {xs : List Char} :
    Regex.Matches (Regex.Or r s) xs ↔ (Regex.Matches r xs ∨ Regex.Matches s xs) := by
  constructor
  · intro h
    cases h with
    | orL h => exact Or.inl h
    | orR h => exact Or.inr h
  · rintro (h | h)
    · exact Regex.Matches.orL h
    · exact Regex.Matches.orR h

theorem Regex.matches_then_iff {r s : Regex} {xs : List Char} :
    Regex.Matches (Regex.Then r s) xs ↔
      ∃ u v, xs = u ++ v ∧ Regex.Matches r u ∧ Regex.Matches s v := by
  constructor
  · intro h
    cases h with
    | cat hu hv => exact ⟨_, _, rfl, hu, hv⟩
  · rintro ⟨u, v, rfl, hu, hv⟩
    exact Regex.Matches.cat hu hv

theorem Regex.matches_star_aux {r e : Regex} {xs : List Char}
    (h : Regex.Matches e xs) : e = Regex.Star r → Lstar (Regex.Matches r) xs := by
  induction h with
  | empty => intro he; cases he
  | single c => intro he; cases he
  | orL _ _ => intro he; cases he
  | orR _ _ => intro he; cases he
  | cat _ _ _ _ => intro he; cases he
  | starNil =>
    intro he
    injection he with h1
    subst h1
    exact Lstar.nil
  | starCons hu _ _ ihv =>
    intro he
    injection he with h1
    subst h1
    exact Lstar.cons hu (ihv rfl)

theorem Regex.matches_star_mpr {r : Regex} {xs : List Char}
    (h : Lstar (Regex.Matches r) xs) : Regex.Matches (Regex.Star r) xs := by
  induction h with
  | nil => exact Regex.Matches.starNil
  | cons hu _ ih => exact Regex.Matches.starCons hu ih

theorem NFA.from_regex_lang (p : Regex) (xs : List Char) :
    (NFA.from_regex p).Lang xs ↔ p.Matches xs := by
  induction p generalizing xs with
  | Empty =>
    rw [show NFA.from_regex Regex.Empty = NFA.empty from rfl, NFA.empty_lang,
      Regex.matches_empty_iff]
  | Single c =>
    rw [show NFA.from_regex (Regex.Single c) = NFA.single c from rfl, NFA.single_lang,
      Regex.matches_single_iff]
  | Or r s ihr ihs =>
    show (NFA.or (NFA.from_regex r) (NFA.from_regex s)).Lang xs ↔ _
    rw [NFA.or_lang (NFA.canonical_from_regex r) (NFA.canonical_from_regex s),
      ihr, ihs, Regex.matches_or_iff]
  | Then r s ihr ihs =>
    show (NFA.«then» (NFA.from_regex r) (NFA.from_regex s)).Lang xs ↔ _
    rw [NFA.then_lang (NFA.canonical_from_regex r) (NFA.canonical_from_regex s),
      Regex.matches_then_iff]
    simp only [ihr, ihs]
  | Star r ihr =>
    show (NFA.star (NFA.from_regex r)).Lang xs ↔ _
    rw [NFA.star_lang (NFA.canonical_from_regex r)]
    constructor
    · intro h
      exact Regex.matches_star_mpr (Lstar_congr (fun u => ihr u) h)
    · intro h
      exact Lstar_congr (fun u => (ihr u).symm) (Regex.matches_star_aux h rfl)

theorem NFA.accepts_iff_matches (p : Regex) (xs : List Char) :
    (NFA.from_regex p).accepts xs = true ↔ p.Matches xs := by
  rw [NFA.accepts_iff_path, NFA.from_regex_lang]

/-! ## Remaining helpers for the claim theorems -/

theorem NFA.epsilonClosure_of_closed {m : NFA} {S : Finset Nat}
    (h : m.step S none ⊆ S) : m.epsilonClosure S = S := by
  rw [NFA.epsilonClosure]
  by_cases hemp : m.step S none = ∅
  · rw [if_pos hemp]
  · rw [if_neg hemp]
    have heq : S ∪ m.step S none = S := Finset.union_eq_left.mpr h
    rw [heq, if_pos rfl]

theorem bool_eq_of_iff {x y : Bool} (h : x = true ↔ y = true) : x = y := by
  cases x <;> cases y <;> simp_all

/-! ## The claims -/

/-- C1: for every Pattern `p` and finite symbol sequence `s`,
`compile(p).accepts(s)` is true iff `s` belongs to the formal regular
language denoted by `p` (`Empty` denotes the singleton of the empty
sequence, `Literal(c)` denotes `{[c]}`, `Alternation` is union,
`Concatenation` is concatenation, `Repetition` is Kleene star, as captured
by `Regex.Matches`). -/
theorem C1_compile_accepts_iff_denotation (p : Regex) (s : List Char) :
    (NFA.from_regex p).accepts s = true ↔ p.Matches s :=
  NFA.accepts_iff_matches p s

/-- C2 (counterexample): in the NFA compiled from `Star (Single 'a')` the
embedded copy of the sub-automaton's accepting state is node
`1 + final_idx = 2`; its epsilon transitions go to node 3 (the new accept)
and node 0 (the new start) — NOT to node 1, the embedded copy of the
sub-automaton's start state, contradicting the claim that the second
epsilon transition targets the embedded start. -/
theorem C2_counterexample :
    ((NFA.from_regex (Regex.Star (Regex.Single 'a'))).node
        (1 + (NFA.from_regex (Regex.Single 'a')).final_idx)).transitions
      = [(none, 3), (none, 0)] ∧
    (NFA.from_regex (Regex.Star (Regex.Single 'a'))).final_idx = 3 ∧
    1 + (NFA.from_regex (Regex.Single 'a')).start_idx = 1 ∧
    ¬ ((none, 1) ∈ ((NFA.from_regex (Regex.Star (Regex.Single 'a'))).node
        (1 + (NFA.from_regex (Regex.Single 'a')).final_idx)).transitions) :=
  ⟨by decide, by decide, by decide, by decide⟩

/-- C2 (amended): in the NFA compiled from `Repetition(a)` the node that
was the embedded copy of `a`'s accepting state carries epsilon transitions
to exactly two places: the new accept state and the NEW START state (node
0) — not the embedded start of `a`; the new start is a different node from
the embedded start, and it is the new start that carries an epsilon
transition on to the embedded start of `a`, so the loop back to the
embedded start is indirect, via the new start. -/
theorem C2_amended_star_embedded_accept (a : Regex) :
    ((NFA.from_regex (Regex.Star a)).node
        (1 + (NFA.from_regex a).final_idx)).transitions
      = [(none, (NFA.from_regex (Regex.Star a)).final_idx),
         (none, (NFA.from_regex (Regex.Star a)).start_idx)] ∧
    (NFA.from_regex (Regex.Star a)).start_idx ≠ 1 + (NFA.from_regex a).start_idx ∧
    ((none, 1 + (NFA.from_regex a).start_idx) ∈
      ((NFA.from_regex (Regex.Star a)).node
        ((NFA.from_regex (Regex.Star a)).start_idx)).transitions) := by
  have ha := NFA.canonical_from_regex a
  have h2a := ha.two_le
  have hafin : (NFA.from_regex a).final_idx = (NFA.from_regex a).nodes.length - 1 :=
    ha.final_eq
  have hfa : (NFA.from_regex a).final_idx < (NFA.from_regex a).nodes.length := by omega
  refine ⟨?_, ?_, ?_⟩
  · show ((NFA.star (NFA.from_regex a)).node
        (1 + (NFA.from_regex a).final_idx)).transitions = _
    rw [NFA.star_node_mid _ hfa]
    have hfinself : ((NFA.from_regex a).final_idx == (NFA.from_regex a).final_idx) = true := by
      simp
    rw [hfinself]
    show (embedNode 1 [(NFA.from_regex a).nodes.length + 1, 0] true
        ((NFA.from_regex a).node (NFA.from_regex a).final_idx)).transitions = _
    simp only [embedNode, Node.new, if_pos, ha.final_nil, List.map_nil, List.nil_append,
      List.map_cons, ite_true]
    rfl
  · show (0 : Nat) ≠ 1 + (NFA.from_regex a).start_idx
    omega
  · show ((none, 1 + (NFA.from_regex a).start_idx) ∈
      ((NFA.star (NFA.from_regex a)).node 0).transitions)
    rw [NFA.star_node_zero, ha.start_eq]
    simp [Node.new]

/-- C3: `compile(Literal(c))` accepts exactly the one-symbol sequence
`[c]`: it accepts `[c]` and rejects `[]`, `[c, c]` and `[d]` for every
`d ≠ c`. -/
theorem C3_literal_accepts (c : Char) :
    (NFA.from_regex (Regex.Single c)).accepts [c] = true ∧
    (NFA.from_regex (Regex.Single c)).accepts [] = false ∧
    (NFA.from_regex (Regex.Single c)).accepts [c, c] = false ∧
    (∀ d : Char, d ≠ c → (NFA.from_regex (Regex.Single c)).accepts [d] = false) := by
  have key : ∀ xs, (NFA.from_regex (Regex.Single c)).accepts xs = true ↔ xs = [c] := by
    intro xs
    rw [NFA.accepts_iff_matches, Regex.matches_single_iff]
  have keyF : ∀ xs, xs ≠ [c] → (NFA.from_regex (Regex.Single c)).accepts xs = false := by
    intro xs hne
    rw [Bool.eq_false_iff]
    intro h
    exact hne ((key xs).mp h)
  refine ⟨(key [c]).mpr rfl, keyF [] (by simp), keyF [c, c] (by simp), ?_⟩
  intro d hd
  exact keyF [d] (by simpa using hd)

/-- Witness for C3 at `c = 'a'`, `d = 'b'`. -/
theorem C3_witness :
    ('b' ≠ 'a') ∧ (NFA.from_regex (Regex.Single 'a')).accepts ['b'] = false :=
  ⟨by decide, (C3_literal_accepts 'a').2.2.2 'b' (by decide)⟩

/-- C4: alternation is commutative at the level of accepted language:
`compile(a.or(b))` and `compile(b.or(a))` agree on every sequence. -/
theorem C4_or_commutative (a b : Regex) (s : List Char) :
    (NFA.from_regex (a.or b)).accepts s = (NFA.from_regex (b.or a)).accepts s := by
  apply bool_eq_of_iff
  rw [NFA.accepts_iff_matches, NFA.accepts_iff_matches]
  unfold Regex.or
  rw [Regex.matches_or_iff, Regex.matches_or_iff]
  exact or_comm

/-- C5: concatenation is associative at the level of accepted language:
`compile((a.then(b)).then(c))` and `compile(a.then(b.then(c)))` agree on
every sequence. -/
theorem C5_then_associative (a b c : Regex) (s : List Char) :
    (NFA.from_regex ((a.«then» b).«then» c)).accepts s
      = (NFA.from_regex (a.«then» (b.«then» c))).accepts s := by
  apply bool_eq_of_iff
  rw [NFA.accepts_iff_matches, NFA.accepts_iff_matches]
  unfold Regex.«then»
  simp only [Regex.matches_then_iff]
  constructor
  · rintro ⟨u, v, rfl, ⟨x, y, rfl, hx, hy⟩, hv⟩
    exact ⟨x, y ++ v, by rw [List.append_assoc], hx, y, v, rfl, hy, hv⟩
  · rintro ⟨u, v, rfl, hu, x, y, rfl, hx, hy⟩
    exact ⟨u ++ x, y, by rw [List.append_assoc], ⟨u, x, rfl, hu, hx⟩, hy⟩

/-- C6: repetition fixpoint: if `compile(p)` accepts `s` then
`compile(p.star())` accepts `s ++ s`, and `compile(p.star())` always
accepts the empty sequence. -/
theorem C6_star_fixpoint (p : Regex) (s : List Char) :
    ((NFA.from_regex p).accepts s = true →
      (NFA.from_regex p.star).accepts (s ++ s) = true) ∧
    (NFA.from_regex p.star).accepts [] = true := by
  constructor
  · intro h
    rw [NFA.accepts_iff_matches] at h ⊢
    unfold Regex.star
    have h2 : Regex.Matches (Regex.Star p) (s ++ (s ++ [])) :=
      Regex.Matches.starCons h (Regex.Matches.starCons h Regex.Matches.starNil)
    simpa using h2
  · rw [NFA.accepts_iff_matches]
    exact Regex.Matches.starNil

/-- Witness for C6 at `p = Single 'a'`, `s = ['a']`. -/
theorem C6_witness :
    (NFA.from_regex (Regex.Single 'a')).accepts ['a'] = true ∧
    (NFA.from_regex ((Regex.Single 'a').star)).accepts (['a'] ++ ['a']) = true := by
  have h : (NFA.from_regex (Regex.Single 'a')).accepts ['a'] = true :=
    (NFA.accepts_iff_matches (Regex.Single 'a') ['a']).mpr (Regex.Matches.single 'a')
  exact ⟨h, (C6_star_fixpoint (Regex.Single 'a') ['a']).1 h⟩

/-- C7: rejection short-circuits: if, while simulating `m` on `s`, the
symbol step from the current reachable set is empty at some symbol of `s`
(captured by `stuckFrom` over the same state evolution `accepts` uses),
then `m.accepts (s ++ t)` is false for every suffix `t` — the result no
longer depends on the remaining input. -/
theorem C7_short_circuit (m : NFA) (s t : List Char)
    (h : m.stuckFrom (m.epsilonClosure {m.start_idx}) s = true) :
    m.accepts (s ++ t) = false := by
  unfold NFA.accepts
  exact m.stuckFrom_acceptsFrom_append s _ t h

/-- Witness for C7: `compile(Literal('a'))` gets stuck on the first symbol
of `"b"` and rejects `"b" ++ "aaaaaaaa"` without needing the tail. -/
theorem C7_witness :
    (NFA.from_regex (Regex.Single 'a')).stuckFrom
      ((NFA.from_regex (Regex.Single 'a')).epsilonClosure
        {(NFA.from_regex (Regex.Single 'a')).start_idx}) ['b'] = true ∧
    (NFA.from_regex (Regex.Single 'a')).accepts
      (['b'] ++ ['a', 'a', 'a', 'a', 'a', 'a', 'a', 'a']) = false := by
  have hc : (NFA.from_regex (Regex.Single 'a')).epsilonClosure {0} = {0} :=
    NFA.epsilonClosure_of_closed (by decide)
  have hstuck : (NFA.from_regex (Regex.Single 'a')).stuckFrom
      ((NFA.from_regex (Regex.Single 'a')).epsilonClosure
        {(NFA.from_regex (Regex.Single 'a')).start_idx}) ['b'] = true := by
    show (NFA.from_regex (Regex.Single 'a')).stuckFrom
      ((NFA.from_regex (Regex.Single 'a')).epsilonClosure {0}) ['b'] = true
    rw [hc]
    simp only [NFA.stuckFrom]
    rw [if_pos (by decide)]
  exact ⟨hstuck, C7_short_circuit _ ['b'] _ hstuck⟩

/-- C8: every transition target stored in every node of a compiled NFA is
a valid index into its node collection; consequently every state produced
by a symbol step, and every state added by the epsilon closure, is in
bounds, so the indexing performed during simulation never leaves the node
array. -/
theorem C8_targets_in_bounds (p : Regex) :
    (NFA.from_regex p).targetsOk ∧
    (∀ (S : Finset Nat) (a : Option Char),
      ∀ j ∈ (NFA.from_regex p).step S a, j < (NFA.from_regex p).nodes.length) ∧
    (∀ S : Finset Nat,
      ∀ j ∈ (NFA.from_regex p).epsilonClosure S,
        j ∈ S ∨ j < (NFA.from_regex p).nodes.length) := by
  have hok := (NFA.canonical_from_regex p).targets
  refine ⟨hok, ?_, ?_⟩
  · intro S a j hj
    obtain ⟨i, _, hmem⟩ := NFA.mem_step.mp hj
    exact NFA.targets_lt hok hmem
  · intro S j hj
    obtain ⟨i, hi, hrtg⟩ := (NFA.from_regex p).epsilonClosure_sound S j hj
    rcases hrtg.cases_tail with heq | ⟨k, _, hedge⟩
    · subst heq
      exact Or.inl hi
    · exact Or.inr (NFA.targets_lt hok hedge)

/-- Witness for C8 at `p = Single 'a'`: the step from state set `{0}` on
symbol `'a'` contains state 1, which is in bounds. -/
theorem C8_witness :
    1 ∈ (NFA.from_regex (Regex.Single 'a')).step {0} (some 'a') ∧
    1 < (NFA.from_regex (Regex.Single 'a')).nodes.length :=
  ⟨by decide,
   (C8_targets_in_bounds (Regex.Single 'a')).2.1 {0} (some 'a') 1 (by decide)⟩

/-- C9: for every NFA with in-bounds transition targets and every initial
state set, the epsilon-closure loop terminates (it is a total Lean
function, defined by well-founded recursion on how many of the graph's
finitely many transition targets are still missing from the set) and its
result is exactly the set of states reachable from the initial set via
zero or more epsilon transitions.  The characterisation in fact needs no
in-bounds hypothesis. -/
theorem C9_epsilon_closure_correct (m : NFA) (hok : m.targetsOk)
    (S : Finset Nat) (j : Nat) :
    j ∈ m.epsilonClosure S ↔ ∃ i ∈ S, Relation.ReflTransGen m.EpsEdge i j :=
  m.mem_epsilonClosure_iff S j

/-- Witness for C9 at the two-state automaton of `Literal('a')`. -/
theorem C9_witness :
    (NFA.single 'a').targetsOk ∧
    (0 ∈ (NFA.single 'a').epsilonClosure {0} ↔
      ∃ i ∈ ({0} : Finset Nat), Relation.ReflTransGen (NFA.single 'a').EpsEdge i 0) :=
  ⟨(NFA.canonical_single 'a').targets,
   C9_epsilon_closure_correct (NFA.single 'a') (NFA.canonical_single 'a').targets {0} 0⟩

/-- C10: for every Pattern `p`, `from_regex p` has exactly `2 * n` nodes
where `n` is the number of AST nodes of `p`, its start index is 0, and
its accepting index is the last index. -/
theorem C10_node_count (p : Regex) :
    (NFA.from_regex p).nodes.length = 2 * p.size ∧
    (NFA.from_regex p).start_idx = 0 ∧
    (NFA.from_regex p).final_idx = (NFA.from_regex p).nodes.length - 1 :=
  ⟨NFA.from_regex_length p, (NFA.canonical_from_regex p).start_eq,
   (NFA.canonical_from_regex p).final_eq⟩

end Thompson
